import Mathlib

set_option maxHeartbeats 1000000

/-
Shallow embedding of the SizeCeph erasure-code plugin
(src/erasure-code/sizeceph/ErasureCodeSizeCeph.cc) and of the simple XOR
codec (src/erasure-code/jerasure/ErasureCodeSimpleXOR.cc).

Byte buffers are modeled as lists of naturals (one per byte); C++
`unsigned int` arithmetic is modeled as natural-number arithmetic reduced
modulo 2^32 exactly where the source can overflow.  The three entry points
of the dynamically loaded native codec (`size_split`, `size_restore`,
`size_can_get_restore_fn`) are external to the repository; they are taken
as function parameters, wrapped exactly the way the plugin wraps the raw
pointers (fixed-size output buffers, null pattern for the validator).
-/

namespace ErasureCodeSizeCeph

/-- Byte buffer: a list of byte values. -/
abbrev Buf := List Nat

/-- Neutral status codes for the plugin interface.  In the source these are
negative errnos: `ok` = 0, `invalid` = -EINVAL, `notFound` = -ENOENT,
`notSupported` = -ENOTSUP, `ioErr` = -EIO. -/
inductive Status where
  | ok
  | invalid
  | notFound
  | notSupported
  | ioErr
deriving DecidableEq

/-- Data shard count (ErasureCodeSizeCeph.h). -/
def SIZECEPH_K : Nat := 4

/-- Parity shard count (ErasureCodeSizeCeph.h). -/
def SIZECEPH_M : Nat := 5

/-- Total shard count (ErasureCodeSizeCeph.h). -/
def SIZECEPH_N : Nat := 9

/-- Internal codec block size in bytes (ErasureCodeSizeCeph.h). -/
def SIZECEPH_ALGORITHM_ALIGNMENT : Nat := 4

/-- Modulus of C++ `unsigned int` arithmetic. -/
def U32 : Nat := 4294967296

/-- Modelled from the spec: `round_up(n, d)` pads `n` up to the next
multiple of `d` (the helper `round_up_to` lives in include/intarith.h,
which is not under src/).  Computed in 32-bit unsigned arithmetic, as in
the source. -/
def round_up_to (n d : Nat) : Nat :=
  if n % d = 0 then n else (n - n % d + d) % U32

/-- `get_alignment()`: returns the 4-byte algorithm alignment. -/
def get_alignment : Nat := SIZECEPH_ALGORITHM_ALIGNMENT

/-- `get_chunk_size(stripe_width)`: pad the stripe width to a multiple of
`K * alignment` and divide by `K`. -/
def get_chunk_size (stripe_width : Nat) : Nat :=
  let alignment := get_alignment
  let k_alignment := SIZECEPH_K * alignment
  let padded_length := round_up_to stripe_width k_alignment
  padded_length / SIZECEPH_K

/-- `minimum_to_decode(want_to_read, available, minimum_set, ...)`.
`minimum_in` is the caller's value of the out-parameter `minimum_set`,
returned unchanged on the failure paths (the source only assigns it on
success).  Sets are modeled as the lists produced by iterating them. -/
def minimum_to_decode (want_to_read available minimum_in : List Nat) :
    Status × List Nat :=
  if available.length < SIZECEPH_N then (.ioErr, minimum_in)
  else if (List.range SIZECEPH_N).any (fun i => !(available.contains i)) then
    (.ioErr, minimum_in)
  else (.ok, available)

/-- `minimum_to_decode_with_cost`: extracts the key set of the cost map and
delegates to `minimum_to_decode`. -/
def minimum_to_decode_with_cost (want_to_read : List Nat)
    (available : List (Nat × Int)) (minimum_in : List Nat) :
    Status × List Nat :=
  minimum_to_decode want_to_read (available.map (fun p => p.1)) minimum_in

/-- Fix a buffer to length `n`: model of a freshly allocated `n`-byte
buffer whose content is the given bytes (zero-padded / truncated to the
allocation size). -/
def fixLen (n : Nat) (l : Buf) : Buf := (l ++ List.replicate n 0).take n

/-- Result of an encode call: the returned status, the list of
`(shard-id, buffer)` entries installed into the out shard map, and whether
the native `size_split` was invoked. -/
structure EncodeResult where
  status : Status
  encoded : List (Nat × Buf)
  splitCalled : Bool
deriving DecidableEq

/-- `encode(want_to_encode, in, encoded)`.  `loaded` is whether the native
binding is loaded; `size_split_func input len shard` abstracts the bytes
the native `size_split` writes into the buffer of `shard` (the plugin
allocates each buffer with length `get_chunk_size len` and zero-fills it
first, hence the `fixLen` wrapper).  The result is `none` when the
`ceph_assert(expected_chunk_size == algorithm_chunk_size)` fires (the
process aborts); the later pointer-identity assert compares bufferlist
internals that the model does not represent and cannot fire here. -/
def encode (loaded : Bool) (size_split_func : Buf → Nat → Nat → Buf)
    (want_to_encode : List Nat) (input : Buf) : Option EncodeResult :=
  if !loaded then some ⟨.notFound, [], false⟩
  else if want_to_encode.length ≠ SIZECEPH_N then some ⟨.invalid, [], false⟩
  else if want_to_encode.any (fun s => SIZECEPH_N ≤ s) then
    some ⟨.invalid, [], false⟩
  else if input.length = 0 then
    some ⟨.ok, want_to_encode.map (fun s => (s, [])), false⟩
  else if input.length % get_alignment ≠ 0 then some ⟨.invalid, [], false⟩
  else
    let expected_chunk_size := get_chunk_size input.length
    let algorithm_chunk_size := input.length / get_alignment
    if expected_chunk_size ≠ algorithm_chunk_size then none
    else
      some ⟨.ok,
        want_to_encode.map (fun s =>
          (s, fixLen expected_chunk_size (size_split_func input input.length s))),
        true⟩

/-- Lookup of shard `i` in the chunks map (assoc-list model of
`shard_id_map<bufferlist>`). -/
def lookupChunk (chunks : List (Nat × Buf)) (i : Nat) : Option Buf :=
  (chunks.find? (fun c => c.1 == i)).map (fun c => c.2)

/-- The decoder's effective chunk size.  The source writes
`unsigned int effective_chunk_size = chunk_size;` so the signed argument
is converted to unsigned BEFORE the `<= 0` test, which therefore only
triggers for 0; a negative `chunk_size` becomes a huge unsigned value. -/
def effectiveChunkSize (chunk_size : Int) (chunks : List (Nat × Buf)) : Nat :=
  let e0 : Nat := (chunk_size % (4294967296 : Int)).toNat
  match chunks with
  | [] => e0
  | c :: _ => if e0 = 0 then c.2.length else e0

/-- The vector of `N` const shard pointers handed to the native codec:
slot `i` carries shard `i`'s bytes, or `none` for a missing shard. -/
def decodeInputs (chunks : List (Nat × Buf)) : List (Option Buf) :=
  (List.range SIZECEPH_N).map (fun i => lookupChunk chunks i)

/-- `original_data_size = get_alignment() * effective_chunk_size` in
32-bit unsigned arithmetic. -/
def originalDataSize (chunk_size : Int) (chunks : List (Nat × Buf)) : Nat :=
  (get_alignment * effectiveChunkSize chunk_size chunks) % U32

/-- The slice of the restored original returned for data shard `id`:
`original_data_per_chunk = L / K` bytes starting at
`id * original_data_per_chunk`, with the last data shard extended to the
end of the buffer. -/
def dataSlice (L : Nat) (restored : Buf) (id : Nat) : Buf :=
  let original_data_per_chunk := L / SIZECEPH_K
  let start_offset := id * original_data_per_chunk
  let len := if id = SIZECEPH_K - 1 then L - start_offset
             else original_data_per_chunk
  (restored.drop start_offset).take len

/-- The final loop of `decode`: walk `want_to_read`, rejecting ids `≥ N`,
installing `dataSlice` for ids `< K` and an empty buffer for parity ids;
`acc` is the list of `(shard-id, buffer)` assignments already performed on
the out map (they persist when a later id aborts the loop with EINVAL). -/
def decodeWants (L : Nat) (restored : Buf) :
    List Nat → List (Nat × Buf) → Status × List (Nat × Buf)
  | [], acc => (.ok, acc)
  | id :: rest, acc =>
    if SIZECEPH_N ≤ id then (.invalid, acc)
    else
      let chunk_bl := if id < SIZECEPH_K then dataSlice L restored id else []
      decodeWants L restored rest (acc ++ [(id, chunk_bl)])

/-- The restored-original buffer of a decode run: an
`original_data_size`-byte allocation filled by the native
`size_restore`. -/
def restoredBuf (size_restore_func : List (Option Buf) → Nat → Option Buf)
    (chunks : List (Nat × Buf)) (chunk_size : Int) : Buf :=
  let L := originalDataSize chunk_size chunks
  fixLen L ((size_restore_func (decodeInputs chunks) L).getD [])

/-- `decode(want_to_read, chunks, decoded, chunk_size)`.
`size_can_get_restore_func` abstracts the native validator as a function
of the null pattern of the input pointers (its documented contract);
`size_restore_func inputs len` is `none` when the native restore returns
non-zero, otherwise the bytes it wrote.  The second component is the list
of `(shard-id, buffer)` assignments performed on the out shard map, in
order; an early error performs none. -/
def decode (loaded : Bool)
    (size_can_get_restore_func : List Bool → Bool)
    (size_restore_func : List (Option Buf) → Nat → Option Buf)
    (want_to_read : List Nat) (chunks : List (Nat × Buf)) (chunk_size : Int) :
    Status × List (Nat × Buf) :=
  if !loaded then (.notFound, [])
  else if chunks.length < SIZECEPH_N then (.notFound, [])
  else if (List.range SIZECEPH_N).any
      (fun i => (lookupChunk chunks i).isNone) then (.notFound, [])
  else
    let eff := effectiveChunkSize chunk_size chunks
    if eff = 0 then (.invalid, [])
    else
      let inputs := decodeInputs chunks
      if !(size_can_get_restore_func (inputs.map (fun o => o.isSome))) then
        (.notSupported, [])
      else
        let L := originalDataSize chunk_size chunks
        match size_restore_func inputs L with
        | none => (.ioErr, [])
        | some raw => decodeWants L (fixLen L raw) want_to_read []

/-- The legacy `decode_concat` chunk size: the length of the first entry
of the chunks map, or 0 when the map is empty. -/
def concatChunkSize (chunks : List (Nat × Buf)) : Int :=
  match chunks with
  | [] => 0
  | c :: _ => (c.2.length : Int)

/-- Legacy `decode_concat(want_to_read, chunks, decoded)`: run `decode`
with the first entry's length as chunk size, then append the decoded
buffers in the iteration order of `want_to_read`, substituting
`chunk_size` zero bytes for a requested shard missing from the decoded
map.  `decoded_in` is the caller's bufferlist, returned untouched on
failure (the source clears it only on success). -/
def decode_concat (loaded : Bool)
    (size_can_get_restore_func : List Bool → Bool)
    (size_restore_func : List (Option Buf) → Nat → Option Buf)
    (want_to_read : List Nat) (chunks : List (Nat × Buf)) (decoded_in : Buf) :
    Status × Buf :=
  let chunk_size := concatChunkSize chunks
  let r := decode loaded size_can_get_restore_func size_restore_func
    want_to_read chunks chunk_size
  if r.1 = Status.ok then
    (Status.ok,
      want_to_read.foldl (fun acc id =>
        acc ++ (match r.2.find? (fun w => w.1 == id) with
                | some w => w.2
                | none => List.replicate chunk_size.toNat 0)) [])
  else (r.1, decoded_in)

end ErasureCodeSizeCeph

namespace ErasureCodeSimpleXOR

/-- `xor_encode_internal(data1, data2, result, size)`: bytewise XOR of two
equal-length buffers. -/
def xor_encode_internal (data1 data2 : List Nat) : List Nat :=
  List.zipWith (fun a b => a ^^^ b) data1 data2

/-- `jerasure_encode(data, coding, blocksize)`: writes
`coding[0] = data[0] XOR data[1]`. -/
def jerasure_encode (data0 data1 : List Nat) : List Nat :=
  xor_encode_internal data0 data1

/-- The three shard buffers of the XOR code: two data shards and the
parity shard `coding[0]`. -/
structure XorState where
  data0 : List Nat
  data1 : List Nat
  coding : List Nat
deriving DecidableEq

/-- Parity shard count of the XOR code (k=2, m=1). -/
def m : Nat := 1

/-- One iteration of the reconstruction loop in `jerasure_decode`. -/
def decodeStep (s : XorState) (missing : Nat) : XorState :=
  if missing = 0 then { s with data0 := xor_encode_internal s.data1 s.coding }
  else if missing = 1 then
    { s with data1 := xor_encode_internal s.data0 s.coding }
  else if missing = 2 then
    { s with coding := xor_encode_internal s.data0 s.data1 }
  else s

/-- `jerasure_decode(erasures, data, coding, blocksize)`: `erasures` is the
erasure list up to (excluding) the -1 sentinel; returns -1 when there are
more erasures than `m`, otherwise reconstructs each erased shard in order
and returns 0. -/
def jerasure_decode (erasures : List Nat) (s : XorState) : Int × XorState :=
  if m < erasures.length then (-1, s)
  else (0, erasures.foldl decodeStep s)

end ErasureCodeSimpleXOR

open ErasureCodeSizeCeph ErasureCodeSimpleXOR

/-- C5: for every stripe width (as a 32-bit unsigned value),
`K * get_chunk_size(stripe_width)` equals `round_up(stripe_width, K*A)`,
and `get_chunk_size(stripe_width) = round_up(stripe_width, 16) / 4`,
exactly, in the unsigned arithmetic of the implementation. -/
theorem get_chunk_size_round_up_identity (sw : Nat) (hsw : sw < U32) :
    SIZECEPH_K * get_chunk_size sw
      = round_up_to sw (SIZECEPH_K * SIZECEPH_ALGORITHM_ALIGNMENT) ∧
    get_chunk_size sw = round_up_to sw 16 / 4 := by
  have key : 4 * (round_up_to sw 16 / 4) = round_up_to sw 16 := by
    unfold round_up_to U32
    by_cases h : sw % 16 = 0
    · rw [if_pos h]; omega
    · rw [if_neg h]; omega
  exact ⟨key, rfl⟩

/-- Witness for C5 at the spec's concrete scenario `stripe_width = 20`. -/
theorem get_chunk_size_round_up_identity_witness :
    SIZECEPH_K * get_chunk_size 20
      = round_up_to 20 (SIZECEPH_K * SIZECEPH_ALGORITHM_ALIGNMENT) ∧
    get_chunk_size 20 = round_up_to 20 16 / 4 :=
  get_chunk_size_round_up_identity 20 (by decide)

/-- C10: `minimum_to_decode` returns the same status and minimum set for
any two `want_to_read` arguments over the same `available` set; the result
is completely independent of `want_to_read`. -/
theorem minimum_to_decode_ignores_want (w1 w2 a minimum_in : List Nat) :
    minimum_to_decode w1 a minimum_in = minimum_to_decode w2 a minimum_in :=
  rfl

/-- C9: with the native binding loaded, encoding a zero-length input with
`want_to_encode = [0, 9)` returns OK, installs an empty buffer for each of
the nine requested shards, and never invokes the native split function. -/
theorem encode_empty_input (split : Buf → Nat → Nat → Buf) :
    encode true split (List.range SIZECEPH_N) [] =
      some ⟨.ok, (List.range SIZECEPH_N).map (fun s => (s, [])), false⟩ :=
  rfl

/-- C1 counterexample: a 4-byte input satisfies all the claim's
preconditions (non-empty, length a multiple of A = 4, full want set,
binding loaded), yet encode hits the `ceph_assert(expected_chunk_size ==
algorithm_chunk_size)` (modeled as `none`) because
`get_chunk_size 4 = 4 ≠ 1 = 4 / 4`. -/
theorem encode_assert_fires_len4 :
    ([0, 0, 0, 0] : Buf).length % SIZECEPH_ALGORITHM_ALIGNMENT = 0 ∧
    ([0, 0, 0, 0] : Buf).length ≠ 0 ∧
    encode true (fun _ _ _ => []) (List.range SIZECEPH_N) [0, 0, 0, 0]
      = none := by
  decide

/-- C1 (amended): with the native binding loaded, `want_to_encode` equal
to the full set [0, 9), and a non-empty input whose length is a multiple
of `K * A = 16`, encode completes the procedure and returns OK (the
internal chunk-size assertion never fires): each of the nine shards gets
the `L / 4`-byte buffer filled by the native split. -/
theorem encode_full_stripe_ok (split : Buf → Nat → Nat → Buf) (input : Buf)
    (hne : input.length ≠ 0) (h16 : input.length % 16 = 0)
    (hlt : input.length < U32) :
    encode true split (List.range SIZECEPH_N) input =
      some ⟨.ok,
        (List.range SIZECEPH_N).map (fun s =>
          (s, fixLen (input.length / 4) (split input input.length s))),
        true⟩ := by
  have h4 : input.length % 4 = 0 := by omega
  have hcs : get_chunk_size input.length = input.length / 4 := by
    show round_up_to input.length 16 / 4 = input.length / 4
    unfold round_up_to
    rw [if_pos h16]
  have hlen : (List.range SIZECEPH_N).length = SIZECEPH_N := by decide
  have hany : (List.range SIZECEPH_N).any (fun s => SIZECEPH_N ≤ s) = false := by
    decide
  simp [encode, hlen, hany, hne, h4, hcs, get_alignment,
    SIZECEPH_ALGORITHM_ALIGNMENT]

/-- Witness for the amended C1 at a concrete 16-byte input. -/
theorem encode_full_stripe_ok_witness :
    encode true (fun _ _ _ => []) (List.range SIZECEPH_N)
        (List.replicate 16 0) =
      some ⟨.ok,
        (List.range SIZECEPH_N).map (fun s => (s, fixLen 4 [])), true⟩ := by
  exact encode_full_stripe_ok (fun _ _ _ => []) (List.replicate 16 0)
    (by decide) (by decide) (by decide)

/-- C2: a decode call whose chunks map has fewer than 9 entries, or is
missing some shard-id in [0, 9), returns NOT_FOUND and performs no
assignment on the output shard map. -/
theorem decode_missing_shards_not_found (loaded : Bool)
    (canR : List Bool → Bool) (res : List (Option Buf) → Nat → Option Buf)
    (want : List Nat) (chunks : List (Nat × Buf)) (cs : Int)
    (h : chunks.length < SIZECEPH_N ∨
      ∃ i, i < SIZECEPH_N ∧ lookupChunk chunks i = none) :
    decode loaded canR res want chunks cs = (.notFound, []) := by
  have hany : chunks.length < SIZECEPH_N ∨
      ((List.range SIZECEPH_N).any
        (fun i => (lookupChunk chunks i).isNone)) = true := by
    rcases h with h | ⟨i, hi, hnone⟩
    · exact Or.inl h
    · right
      simp only [List.any_eq_true, List.mem_range]
      exact ⟨i, hi, by simp [hnone]⟩
  unfold decode
  cases loaded
  · rfl
  · rcases hany with hl | ha
    · simp [hl]
    · by_cases hlen : chunks.length < SIZECEPH_N
      · simp [hlen]
      · simp [hlen, ha]

/-- Witness for C2: an empty chunks map is rejected with NOT_FOUND and no
output is written. -/
theorem decode_missing_shards_not_found_witness :
    decode true (fun _ => true) (fun _ _ => none) [0] [] 0
      = (.notFound, []) :=
  decode_missing_shards_not_found true (fun _ => true) (fun _ _ => none)
    [0] [] 0 (Or.inl (by decide))

/-- C6: `minimum_to_decode(w, a)` succeeds if and only if `a` contains
every shard-id in [0, 9) (failing with IO otherwise), on success the
returned minimum equals `a`, and the `_with_cost` variant ignores the
costs, behaving exactly like `minimum_to_decode` on the cost map's key
set. -/
theorem minimum_to_decode_completeness (w a minimum_in : List Nat)
    (costs : List (Nat × Int)) :
    (((minimum_to_decode w a minimum_in).1 = Status.ok) ↔
      ∀ i, i < SIZECEPH_N → i ∈ a) ∧
    ((∀ i, i < SIZECEPH_N → i ∈ a) →
      minimum_to_decode w a minimum_in = (.ok, a)) ∧
    ((minimum_to_decode w a minimum_in).1 ≠ Status.ok →
      minimum_to_decode w a minimum_in = (.ioErr, minimum_in)) ∧
    minimum_to_decode_with_cost w costs minimum_in
      = minimum_to_decode w (costs.map (fun p => p.1)) minimum_in := by
  have hlen : (∀ i, i < SIZECEPH_N → i ∈ a) → ¬ a.length < SIZECEPH_N := by
    intro hall hlt
    have hsub : Finset.range SIZECEPH_N ⊆ a.toFinset := by
      intro i hi
      exact List.mem_toFinset.mpr (hall i (Finset.mem_range.mp hi))
    have h9 : SIZECEPH_N ≤ a.toFinset.card := by
      simpa using Finset.card_le_card hsub
    have hle := List.toFinset_card_le a
    omega
  by_cases hlt : a.length < SIZECEPH_N
  · have hres : minimum_to_decode w a minimum_in = (.ioErr, minimum_in) := by
      unfold minimum_to_decode
      rw [if_pos hlt]
    refine ⟨?_, ?_, fun _ => hres, rfl⟩
    · rw [hres]
      constructor
      · intro hok
        exact absurd hok (by simp)
      · intro hall
        exact absurd hlt (hlen hall)
    · intro hall
      exact absurd hlt (hlen hall)
  · by_cases hmiss :
      ((List.range SIZECEPH_N).any (fun i => !(a.contains i))) = true
    · have hres : minimum_to_decode w a minimum_in = (.ioErr, minimum_in) := by
        unfold minimum_to_decode
        rw [if_neg hlt, if_pos hmiss]
      have hnotall : ¬ ∀ i, i < SIZECEPH_N → i ∈ a := by
        intro hall
        simp only [List.any_eq_true, List.mem_range] at hmiss
        obtain ⟨i, hi, hc⟩ := hmiss
        simp at hc
        exact hc (hall i hi)
      refine ⟨?_, fun hall => absurd hall hnotall, fun _ => hres, rfl⟩
      rw [hres]
      constructor
      · intro hok
        exact absurd hok (by simp)
      · intro hall
        exact absurd hall hnotall
    · have hall : ∀ i, i < SIZECEPH_N → i ∈ a := by
        intro i hi
        by_contra hmem
        apply hmiss
        simp only [List.any_eq_true, List.mem_range]
        exact ⟨i, hi, by simp [hmem]⟩
      have hres : minimum_to_decode w a minimum_in = (.ok, a) := by
        unfold minimum_to_decode
        rw [if_neg hlt, if_neg hmiss]
      refine ⟨?_, fun _ => hres, ?_, rfl⟩
      · rw [hres]
        constructor
        · intro _
          exact hall
        · intro _
          rfl
      · intro hne
        exact absurd (by rw [hres]) hne

/-- Witness for C6 at a complete available set. -/
theorem minimum_to_decode_completeness_witness :
    minimum_to_decode [3] [0, 1, 2, 3, 4, 5, 6, 7, 8] []
      = (.ok, [0, 1, 2, 3, 4, 5, 6, 7, 8]) :=
  (minimum_to_decode_completeness [3] [0, 1, 2, 3, 4, 5, 6, 7, 8] []
    [(0, 5)]).2.1 (by decide)

/-- C4 evaluation (code bug): with `chunk_size = -1 ≤ 0` and a non-empty
chunks map whose first entry is 8 bytes long, the decoder's effective
chunk size is the unsigned conversion 4294967295 — NOT the inferred first
entry length 8 (inference only happens for `chunk_size = 0`) — and decode
proceeds past the `INVALID` check with that huge value. -/
theorem decode_negative_chunk_size_not_inferred :
    ((-1 : Int) ≤ 0) ∧
    effectiveChunkSize (-1)
      ((List.range SIZECEPH_N).map (fun i => (i, List.replicate 8 0)))
      = 4294967295 ∧
    effectiveChunkSize 0
      ((List.range SIZECEPH_N).map (fun i => (i, List.replicate 8 0))) = 8 ∧
    decode true (fun _ => true) (fun _ _ => none) [0]
      ((List.range SIZECEPH_N).map (fun i => (i, List.replicate 8 0))) (-1)
      = (.ioErr, []) := by
  decide

/-- Helper for C3: a `decodeWants` run that ends with OK visited only
valid shard-ids and appended exactly one entry per requested id — the
data slice for ids below K, an empty buffer otherwise. -/
theorem decodeWants_ok (L : Nat) (restored : Buf) (want : List Nat) :
    ∀ (acc writes : List (Nat × Buf)),
      decodeWants L restored want acc = (.ok, writes) →
      (∀ id ∈ want, id < SIZECEPH_N) ∧
      writes = acc ++ want.map (fun id =>
        (id, if id < SIZECEPH_K then dataSlice L restored id else [])) := by
  induction want with
  | nil =>
    intro acc writes h
    simp only [decodeWants] at h
    simp_all
  | cons id rest ih =>
    intro acc writes h
    simp only [decodeWants] at h
    by_cases h9 : SIZECEPH_N ≤ id
    · rw [if_pos h9] at h
      simp at h
    · rw [if_neg h9] at h
      obtain ⟨hall, hw⟩ := ih _ writes h
      refine ⟨?_, ?_⟩
      · intro i hi
        rcases List.mem_cons.mp hi with rfl | hi
        · omega
        · exact hall i hi
      · rw [hw]
        simp

/-- C3: whenever decode returns success, every requested shard-id below
K = 4 is present in the output mapped to the slice
`restored[id * (L / K) .. (id + 1) * (L / K))` of the restored original
(the last data shard's end bound extended to `L`, the 32-bit product
`A * effective_chunk_size`), and every requested id in [4, 9) is present
mapped to an empty buffer. -/
theorem decode_success_output_shards (loaded : Bool)
    (canR : List Bool → Bool) (res : List (Option Buf) → Nat → Option Buf)
    (want : List Nat) (chunks : List (Nat × Buf)) (cs : Int)
    (writes : List (Nat × Buf))
    (h : decode loaded canR res want chunks cs = (.ok, writes)) :
    ∀ id ∈ want,
      (id < SIZECEPH_K →
        (id, dataSlice (originalDataSize cs chunks)
          (restoredBuf res chunks cs) id) ∈ writes) ∧
      (SIZECEPH_K ≤ id → id < SIZECEPH_N ∧ (id, ([] : Buf)) ∈ writes) := by
  simp only [decode] at h
  cases loaded
  · simp at h
  · simp only [Bool.not_true] at h
    split at h
    · simp at h
    · split at h
      · simp at h
      · split at h
        · simp at h
        · split at h
          · simp at h
          · split at h
            · simp at h
            · split at h
              · simp at h
              · obtain ⟨hall, hw⟩ := decodeWants_ok _ _ want [] writes h
                rename_i raw heq
                have hres : restoredBuf res chunks cs
                    = fixLen (originalDataSize cs chunks) raw := by
                  simp only [restoredBuf]
                  rw [heq]
                  rfl
                intro id hid
                constructor
                · intro hlt
                  rw [hres, hw]
                  simp only [List.nil_append]
                  refine List.mem_map.mpr ⟨id, hid, ?_⟩
                  simp [hlt]
                · intro hge
                  refine ⟨hall id hid, ?_⟩
                  rw [hw]
                  simp only [List.nil_append]
                  refine List.mem_map.mpr ⟨id, hid, ?_⟩
                  have hnlt : ¬ id < SIZECEPH_K := by omega
                  simp [hnlt]

/-- Witness for C3 at a full 9-shard map of 4-byte chunks: shard 2 is
returned as the third quarter of the 16-byte restored original, shard 7
as an empty buffer. -/
theorem decode_success_output_shards_witness :
    ((2 : Nat), ([3, 3, 3, 3] : Buf)) ∈
      ([(2, [3, 3, 3, 3]), (7, [])] : List (Nat × Buf)) ∧
    ((7 : Nat), ([] : Buf)) ∈
      ([(2, [3, 3, 3, 3]), (7, [])] : List (Nat × Buf)) := by
  constructor
  · exact (decode_success_output_shards true (fun _ => true)
      (fun _ _ => some (List.replicate 16 3)) [2, 7]
      ((List.range 9).map (fun i => (i, [1, 1, 1, 1]))) 0
      [(2, [3, 3, 3, 3]), (7, [])] (by decide) 2 (by decide)).1 (by decide)
  · exact ((decode_success_output_shards true (fun _ => true)
      (fun _ _ => some (List.replicate 16 3)) [2, 7]
      ((List.range 9).map (fun i => (i, [1, 1, 1, 1]))) 0
      [(2, [3, 3, 3, 3]), (7, [])] (by decide) 7 (by decide)).2 (by decide)).2

/-- Helper for C7: folding append over a list equals prepending the
accumulator to the flattened map. -/
theorem foldl_append_eq_flatten {α β : Type} (l : List α) (f : α → List β)
    (acc : List β) :
    l.foldl (fun a x => a ++ f x) acc = acc ++ (l.map f).flatten := by
  induction l generalizing acc with
  | nil => simp
  | cons x xs ih => simp [ih, List.append_assoc]

/-- C7: every successful legacy `decode_concat` returns the concatenation,
in the iteration order of the caller's `want_to_read` set, of the
per-shard buffers produced by `decode` (run with the first chunk's length
as chunk size); a requested shard-id absent from the decoded map
contributes exactly `chunk_size` zero bytes in its position. -/
theorem decode_concat_concatenation (loaded : Bool)
    (canR : List Bool → Bool) (res : List (Option Buf) → Nat → Option Buf)
    (want : List Nat) (chunks : List (Nat × Buf)) (decoded_in out : Buf)
    (h : decode_concat loaded canR res want chunks decoded_in
      = (.ok, out)) :
    ∃ writes,
      decode loaded canR res want chunks (concatChunkSize chunks)
        = (.ok, writes) ∧
      out = (want.map (fun id =>
        match writes.find? (fun w => w.1 == id) with
        | some w => w.2
        | none => List.replicate (concatChunkSize chunks).toNat 0)).flatten := by
  simp only [decode_concat] at h
  set d := decode loaded canR res want chunks (concatChunkSize chunks)
    with hd
  by_cases hok : d.1 = Status.ok
  · rw [if_pos hok] at h
    refine ⟨d.2, ?_, ?_⟩
    · rw [← hok]
    · simp only [Prod.mk.injEq] at h
      obtain ⟨-, hout⟩ := h
      rw [← hout, foldl_append_eq_flatten]
      simp
  · rw [if_neg hok] at h
    simp only [Prod.mk.injEq] at h
    exact absurd h.1 hok

/-- Witness for C7: a full 9-shard map of identical 4-byte chunks,
`want = {1, 6}`; the output is shard 1's quarter of the restored original
followed by shard 6's empty buffer. -/
theorem decode_concat_concatenation_witness :
    ∃ writes,
      decode true (fun _ => true) (fun _ _ => some (List.replicate 16 7))
        [1, 6] ((List.range 9).map (fun i => (i, [1, 2, 3, 4])))
        (concatChunkSize ((List.range 9).map (fun i => (i, [1, 2, 3, 4]))))
        = (.ok, writes) ∧
      ([7, 7, 7, 7] : Buf) = ([1, 6].map (fun id =>
        match writes.find? (fun w => w.1 == id) with
        | some w => w.2
        | none => List.replicate
            (concatChunkSize
              ((List.range 9).map (fun i => (i, [1, 2, 3, 4])))).toNat
            0)).flatten := by
  exact decode_concat_concatenation true (fun _ => true)
    (fun _ _ => some (List.replicate 16 7)) [1, 6]
    ((List.range 9).map (fun i => (i, [1, 2, 3, 4]))) [9] [7, 7, 7, 7]
    (by decide)

/-- Helper for C8: XOR-ing a buffer into an XOR combination cancels the
first operand. -/
theorem xor_encode_cancel_fst (a : List Nat) : ∀ (b : List Nat),
    a.length = b.length →
    xor_encode_internal a (xor_encode_internal a b) = b := by
  induction a with
  | nil =>
    intro b h
    cases b with
    | nil => rfl
    | cons y ys => simp at h
  | cons x xs ih =>
    intro b h
    cases b with
    | nil => simp at h
    | cons y ys =>
      simp only [xor_encode_internal, List.zipWith_cons_cons,
        List.cons.injEq]
      constructor
      · exact Nat.xor_cancel_left x y
      · exact ih ys (by simpa using h)

/-- Helper for C8: XOR-ing a buffer into an XOR combination cancels the
second operand. -/
theorem xor_encode_cancel_snd (a : List Nat) : ∀ (b : List Nat),
    a.length = b.length →
    xor_encode_internal b (xor_encode_internal a b) = a := by
  induction a with
  | nil =>
    intro b h
    cases b with
    | nil => rfl
    | cons y ys => simp at h
  | cons x xs ih =>
    intro b h
    cases b with
    | nil => simp at h
    | cons y ys =>
      simp only [xor_encode_internal, List.zipWith_cons_cons,
        List.cons.injEq]
      constructor
      · rw [Nat.xor_comm x y]
        exact Nat.xor_cancel_left y x
      · exact ih ys (by simpa using h)

/-- C8: for the XOR codec and equal-length data buffers, the encoded
parity is the bytewise XOR of the two data buffers; a single erasure of
shard 0 is reconstructed as `data[1] XOR parity`, of shard 1 as
`data[0] XOR parity`, of shard 2 as `data[0] XOR data[1]`; hence decoding
a single erasure right after encode restores the erased buffer exactly. -/
theorem simple_xor_codec_laws (d0 d1 junk : List Nat)
    (hlen : d0.length = d1.length) :
    ((jerasure_encode d0 d1).length = d0.length ∧
      ∀ i (h0 : i < d0.length) (h1 : i < d1.length)
        (hp : i < (jerasure_encode d0 d1).length),
        (jerasure_encode d0 d1).get ⟨i, hp⟩
          = (d0.get ⟨i, h0⟩) ^^^ (d1.get ⟨i, h1⟩)) ∧
    (∀ p : List Nat, jerasure_decode [0] ⟨junk, d1, p⟩
      = (0, ⟨xor_encode_internal d1 p, d1, p⟩)) ∧
    (∀ p : List Nat, jerasure_decode [1] ⟨d0, junk, p⟩
      = (0, ⟨d0, xor_encode_internal d0 p, p⟩)) ∧
    (jerasure_decode [2] ⟨d0, d1, junk⟩
      = (0, ⟨d0, d1, xor_encode_internal d0 d1⟩)) ∧
    (jerasure_decode [0] ⟨junk, d1, jerasure_encode d0 d1⟩
      = (0, ⟨d0, d1, jerasure_encode d0 d1⟩)) ∧
    (jerasure_decode [1] ⟨d0, junk, jerasure_encode d0 d1⟩
      = (0, ⟨d0, d1, jerasure_encode d0 d1⟩)) := by
  refine ⟨⟨?_, ?_⟩, fun p => rfl, fun p => rfl, rfl, ?_, ?_⟩
  · simp [jerasure_encode, xor_encode_internal, List.length_zipWith, hlen]
  · intro i h0 h1 hp
    simp [jerasure_encode, xor_encode_internal, List.get_eq_getElem,
      List.getElem_zipWith]
  · have hstep : jerasure_decode [0] ⟨junk, d1, jerasure_encode d0 d1⟩
        = (0, ⟨xor_encode_internal d1 (xor_encode_internal d0 d1), d1,
            xor_encode_internal d0 d1⟩) := rfl
    rw [hstep, xor_encode_cancel_snd d0 d1 hlen]
    rfl
  · have hstep : jerasure_decode [1] ⟨d0, junk, jerasure_encode d0 d1⟩
        = (0, ⟨d0, xor_encode_internal d0 (xor_encode_internal d0 d1),
            xor_encode_internal d0 d1⟩) := rfl
    rw [hstep, xor_encode_cancel_fst d0 d1 hlen]
    rfl

/-- Witness for C8 at the spec's concrete XOR scenario buffers. -/
theorem simple_xor_codec_laws_witness :
    jerasure_decode [1] ⟨[1, 2, 3, 4], [0, 0, 0, 0],
        jerasure_encode [1, 2, 3, 4] [16, 32, 48, 64]⟩
      = (0, ⟨[1, 2, 3, 4], [16, 32, 48, 64],
          jerasure_encode [1, 2, 3, 4] [16, 32, 48, 64]⟩) :=
  (simple_xor_codec_laws [1, 2, 3, 4] [16, 32, 48, 64] [0, 0, 0, 0]
    (by decide)).2.2.2.2.2
